import Mathlib

/-!
Verification of the rabo2ofx CSV-to-OFX converter (src/rabo2ofx.py) against
its natural-language specification.  The Python code is shallowly embedded:
each `map_*` method of `CsvFile`, the `Cfg` configuration loader and the
per-account emission loop of `OfxWriter.run` become executable Lean
functions; Python dictionaries become association lists, Python exceptions
become `Except`, and the float parse used for the debit/credit marker
becomes an `Option Rat` parser over the sign/digits/point grammar that the
amount fields of this program inhabit.
-/

namespace Rabo2Ofx

/-- Model of Python `s.replace(a, b)` for one-character `a`, `b`: every
occurrence of the character `a` in `s` is replaced by `b`. -/
def pyReplaceChar (a b : Char) (s : String) : String :=
  String.mk (s.data.map (fun c => if c = a then b else c))

/-- Model of chained Python `s.replace(c, "")` calls for the characters in
`cs`: every occurrence of any of them is deleted. -/
def pyRemoveChars (cs : List Char) (s : String) : String :=
  String.mk (s.data.filter (fun c => !(cs.contains c)))

/-- Lexicographic strict comparison of code-point lists; models Python
string `<` / `>` (Python compares strings by code point). -/
def lexLt : List Char → List Char → Bool
  | [], [] => false
  | [], _ :: _ => true
  | _ :: _, [] => false
  | a :: l1, b :: l2 =>
      if a.toNat < b.toNat then true
      else if b.toNat < a.toNat then false
      else lexLt l1 l2

/-- Model of Python string strict less-than. -/
def pyStrLt (s1 s2 : String) : Bool := lexLt s1.data s2.data

/-- Model of a Python `dict` subscript read returning `none` where Python
would raise `KeyError`. -/
def pyDictGet (d : List (String × String)) (k : String) : Option String :=
  (d.find? (fun p => p.1 == k)).map (fun p => p.2)

/-- Embedding of `CsvFile.map_date_posted` (src/rabo2ofx.py lines 363-377):
the posted date defaults to the interest date; when the
`force_date_posted` override is truthy (a non-empty string, Python
truthiness) and the interest date differs from the transaction date, the
transaction date is used instead and the override counter is 1.  All `-`
characters are removed (the `re.sub` call).  An absent
`force_date_posted` key makes the subscript raise `KeyError`. -/
def map_date_posted (overrides : List (String × String))
    (interestDate txnDate : String) : Except String (Nat × String) :=
  match pyDictGet overrides "force_date_posted" with
  | none => Except.error "KeyError: force_date_posted"
  | some v =>
      if v ≠ "" ∧ interestDate ≠ txnDate then
        Except.ok (1, pyRemoveChars ['-'] txnDate)
      else
        Except.ok (0, pyRemoveChars ['-'] interestDate)

/-- Embedding of `CsvFile.map_amount` (src/rabo2ofx.py lines 379-387): under
the decimal-comma preference every `.` becomes `,`; otherwise every `,`
becomes `.`. -/
def map_amount (decComma : Bool) (amt : String) : String :=
  if decComma then pyReplaceChar '.' ',' amt else pyReplaceChar ',' '.' amt

/-- The amount stripping inside `CsvFile.map_fitid`: the chained
`.replace(",", "").replace(".", "").replace("-", "").replace("+", "")`. -/
def stripAmountChars (amt : String) : String :=
  pyRemoveChars [',', '.', '-', '+'] amt

/-- Key construction of `CsvFile.map_fitid` (src/rabo2ofx.py lines 411-421):
with a non-empty sequence number (`volgnr`, Python truthiness) and a posted
date strictly greater than `"20171231"` (Python string comparison) the key
is `account + volgnr`; otherwise it is the legacy
`dtposted + strippedAmount + dcCode`. -/
def fitidKey (account volgnr trnamt dtposted dcCode : String) : String :=
  if volgnr != "" && pyStrLt "20171231" dtposted then account ++ volgnr
  else dtposted ++ stripAmountChars trnamt ++ dcCode

/-- Little-endian decimal digits of `n`, with explicit fuel so the
definition is structural and evaluates inside the kernel.  Any fuel of at
least `n` gives the exact digit list. -/
def natDigitsRev : Nat → Nat → List Nat
  | 0, _ => []
  | f + 1, n => if n = 0 then [] else n % 10 :: natDigitsRev f (n / 10)

/-- Model of Python `str` on a non-negative integer: its decimal digit
string. -/
def natStr (n : Nat) : String :=
  if n = 0 then "0"
  else String.mk (((natDigitsRev n n).map Nat.digitChar).reverse)

/-- Numeric value of a digit-character list read in base 10. -/
def digitsVal (l : List Char) : Nat :=
  l.foldl (fun a c => 10 * a + (c.toNat - 48)) 0

/-- Unsigned part of the Python `float` literal parse, on a code-point
list: digits with at most one `.`, at least one digit overall.  Any other
character (in particular a decimal comma) is rejected, exactly as Python
`float` rejects it. -/
def pyFloatBody (l : List Char) : Option Rat :=
  let ip := l.takeWhile (fun c => !(c == '.'))
  match l.dropWhile (fun c => !(c == '.')) with
  | [] => if l.all Char.isDigit && !l.isEmpty then some ((digitsVal l : Nat) : Rat) else none
  | _ :: fp =>
      if ip.all Char.isDigit && fp.all Char.isDigit && (!ip.isEmpty || !fp.isEmpty) then
        some ((digitsVal ip : Nat) + ((digitsVal fp : Nat) : Rat) / ((10 : Rat) ^ fp.length))
      else none

/-- Model of Python `float(s)` restricted to the optional-sign
digits-and-point grammar that bank amount strings inhabit; `none` where
Python raises `ValueError`.  The sign of the resulting rational equals the
sign of the Python float, which is all `map_fitid` consumes. -/
def pyFloat (s : String) : Option Rat :=
  match s.data with
  | '-' :: rest => (pyFloatBody rest).map (fun v => -v)
  | '+' :: rest => pyFloatBody rest
  | l => pyFloatBody l

/-- The per-run fitid collision map `self.fitid`: a Python dict from key to
last used sequence number, as an association list. -/
abbrev FitidMap := List (String × Nat)

/-- Dict lookup in the fitid map. -/
def fmLookup (m : FitidMap) (k : String) : Option Nat :=
  (m.find? (fun p => p.1 == k)).map (fun p => p.2)

/-- Dict store `m[k] = v`: overwrite the existing binding or append a new
one. -/
def fmStore : FitidMap → String → Nat → FitidMap
  | [], k, v => [(k, v)]
  | (k', v') :: rest, k, v =>
      if k' = k then (k, v) :: rest else (k', v') :: fmStore rest k v

/-- Embedding of `CsvFile.map_fitid` (src/rabo2ofx.py lines 399-431): parse
the mapped amount as a float for the debit/credit marker (`C` for values
`>= 0`, else `D`), build the key, read the per-key sequence counter
(absent: 0, present: stored value plus one), emit `key + str(sequence)`
and store the counter back.  The float `ValueError` on an unparsable
amount is the `Except.error` case. -/
def map_fitid (fitids : FitidMap) (account volgnr trnamt dtposted : String) :
    Except String (String × FitidMap) :=
  match pyFloat trnamt with
  | none => Except.error ("could not convert string to float: " ++ trnamt)
  | some v =>
      let dcCode := if 0 ≤ v then "C" else "D"
      let key := fitidKey account volgnr trnamt dtposted dcCode
      let sequence :=
        match fmLookup fitids key with
        | some s => s + 1
        | none => 0
      Except.ok (key ++ natStr sequence, fmStore fitids key sequence)

/-- The four inputs `map_fitid` receives for one CSV record. -/
structure FitRec where
  account : String
  volgnr : String
  trnamt : String
  dtposted : String
deriving DecidableEq, Repr

/-- Identifier Generator run over a record sequence, threading the fitid
map exactly as the `CsvFile` instance does across `create_ofx` calls. -/
def runFitidsAux : FitidMap → List FitRec → Except String (List String)
  | _, [] => Except.ok []
  | m, r :: rs =>
      match map_fitid m r.account r.volgnr r.trnamt r.dtposted with
      | Except.error e => Except.error e
      | Except.ok (fid, m2) =>
          match runFitidsAux m2 rs with
          | Except.error e => Except.error e
          | Except.ok l => Except.ok (fid :: l)

/-- One run of the Identifier Generator, starting from the empty map
created in `CsvFile.__init__`. -/
def runFitids (rs : List FitRec) : Except String (List String) :=
  runFitidsAux [] rs

/-- The key a record produces inside `map_fitid`, when its amount parses. -/
def recKey (r : FitRec) : Option String :=
  (pyFloat r.trnamt).map
    (fun v => fitidKey r.account r.volgnr r.trnamt r.dtposted (if 0 ≤ v then "C" else "D"))

/-- Model of Python `str.upper` for the ASCII account identifiers the
config file holds. -/
def pyUpper (s : String) : String := s.toUpper

/-- An on-disk ini file as `configparser` exposes it: named sections, each
an ordered list of key/value entries. -/
structure ConfigData where
  sections : List (String × List (String × String))
deriving DecidableEq, Repr

/-- Subscript access `config[name]` on a parsed ini file; `none` is the
`KeyError` Python raises for a missing section. -/
def sectionLookup (cf : ConfigData) (name : String) : Option (List (String × String)) :=
  (cf.sections.find? (fun p => p.1 == name)).map (fun p => p.2)

/-- The state `Cfg.__init__` leaves behind: the configured account ordering
and the override entries. -/
structure Cfg where
  config_accounts : List String
  config_overrides : List (String × String)
deriving DecidableEq, Repr

/-- Embedding of `Cfg.__init__` (src/rabo2ofx.py lines 478-493).  With no
config file both lists stay empty.  With a config file the code reads
`config['accounts']` and `config['override']` unguarded, so a missing
section raises `KeyError`; otherwise the account values are uppercased and
collected in order and the override entries are copied. -/
def cfgInit (file : Option ConfigData) : Except String Cfg :=
  match file with
  | none => Except.ok ⟨[], []⟩
  | some cf =>
      match sectionLookup cf "accounts" with
      | none => Except.error "KeyError: accounts"
      | some accs =>
          match sectionLookup cf "override" with
          | none => Except.error "KeyError: override"
          | some ovr =>
              Except.ok ⟨accs.map (fun p => pyUpper p.2), ovr⟩

/-- Embedding of `Cfg.main_accounts` (src/rabo2ofx.py lines 508-520):
collect configured accounts in order, stopping at the first one equal to
`account`.  The Python set is modelled as a list consulted only through
membership. -/
def main_accounts (configAccounts : List String) (account : String) : List String :=
  configAccounts.takeWhile (fun acc => acc != account)

/-- Embedding of `OfxWriter.gather_transfer_accounts` (src/rabo2ofx.py
lines 673-686): for a configured account, its superior accounts; for an
unknown account, the whole configured list; plus every already processed
account that is not configured. -/
def gather_transfer_accounts (configAccounts processed : List String)
    (account : String) : List String :=
  (if configAccounts.contains account then main_accounts configAccounts account
   else configAccounts)
    ++ processed.filter (fun acc => !(configAccounts.contains acc))

/-- The fields of one mapped transaction that the emission loop of
`OfxWriter.run` consults. -/
structure Txn where
  account : String
  accountto : String
  dtposted : String
  nr_overrides : Nat
deriving DecidableEq, Repr

/-- The per-account counters and emitted transactions accumulated by
`OfxWriter.run`. -/
structure AcctLedger where
  txn_ctr : Nat
  txn_skip : Nat
  txn_processed : Nat
  nr_overrides : Nat
  emitted : List Txn
deriving DecidableEq, Repr

/-- The skip guard of the inner loop of `OfxWriter.run` (src/rabo2ofx.py
line 634): the destination account is a gathered transfer account and the
run is not in HomeBank (dual-leg) mode. -/
def skipTxn (transferAccounts : List String) (homebank : Bool) (t : Txn) : Bool :=
  transferAccounts.contains t.accountto && !homebank

/-- One step of the inner loop of `OfxWriter.run` (src/rabo2ofx.py lines
629-640) for the account currently being written. -/
def stepTxn (transferAccounts : List String) (homebank : Bool) (account : String)
    (led : AcctLedger) (t : Txn) : AcctLedger :=
  if t.account == account then
    let led1 : AcctLedger := { led with txn_ctr := led.txn_ctr + 1 }
    if skipTxn transferAccounts homebank t then
      { led1 with txn_skip := led1.txn_skip + 1 }
    else
      { led1 with
          txn_processed := led1.txn_processed + 1,
          nr_overrides := led1.nr_overrides + t.nr_overrides,
          emitted := led1.emitted ++ [t] }
  else led

/-- The whole inner loop of `OfxWriter.run` for one account: every
transaction of the file is scanned in order against that account's
gathered transfer set, starting from zeroed counters. -/
def processAccount (configAccounts processed : List String) (homebank : Bool)
    (txns : List Txn) (account : String) : AcctLedger :=
  txns.foldl
    (stepTxn (gather_transfer_accounts configAccounts processed account) homebank account)
    ⟨0, 0, 0, 0, []⟩

/-- Account keys in first-seen order, as the insertion-ordered Python dict
`accounts` collects them in the gathering loop of `OfxWriter.run`. -/
def firstSeen (txns : List Txn) : List String :=
  txns.foldl (fun acc t => if acc.contains t.account then acc else acc ++ [t.account]) []

/-- The outer loop of `OfxWriter.run`: accounts are handled in first-seen
order, and each finished account joins `processed_accounts` before the
next one starts. -/
def runAccountsAux (configAccounts : List String) (homebank : Bool) (txns : List Txn) :
    List String → List String → List (String × AcctLedger)
  | _, [] => []
  | processed, a :: pending =>
      (a, processAccount configAccounts processed homebank txns a)
        :: runAccountsAux configAccounts homebank txns (processed ++ [a]) pending

/-- Embedding of the emission phase of `OfxWriter.run` (src/rabo2ofx.py
lines 591-645): one ledger per account in first-seen order, starting from
an empty `processed_accounts` set. -/
def runAccounts (configAccounts : List String) (homebank : Bool) (txns : List Txn) :
    List (String × AcctLedger) :=
  runAccountsAux configAccounts homebank txns [] (firstSeen txns)

/-- First position of `x` in a list, the length when absent; used to state
ordering-position claims about the configured account list. -/
def firstIdx (x : String) : List String → Nat
  | [] => 0
  | y :: ys => if y = x then 0 else firstIdx x ys + 1

/-- The suppressed-counterparty set exactly as the spec words it (section
4.3): when the account occurs in the ordering, the accounts strictly
preceding its first occurrence there, excluding the account itself; when
it does not occur, the entire ordering; in both cases unioned with every
already-processed account that is not part of the ordering. -/
def suppressedCounterpartiesSpec (ordering processed : List String)
    (account : String) : List String :=
  (if account ∈ ordering then
      (ordering.take (firstIdx account ordering)).filter (fun a => a != account)
    else ordering)
    ++ processed.filter (fun a => !(ordering.contains a))

/-- Unsigned body of the RawRecord amount invariant (spec section 3): all
digits, or digits around a single decimal point or comma. -/
def numericBody (l : List Char) : Bool :=
  let ip := l.takeWhile (fun c => !(c == '.' || c == ','))
  match l.dropWhile (fun c => !(c == '.' || c == ',')) with
  | [] => !l.isEmpty && l.all Char.isDigit
  | _ :: fp => !ip.isEmpty && ip.all Char.isDigit && !fp.isEmpty && fp.all Char.isDigit

/-- The RawRecord amount invariant from the spec (section 3): a non-empty
numeric string, optionally minus-signed, using `.` or `,` as its (single)
decimal separator. -/
def isNumericAmountStr (s : String) : Bool :=
  match s.data with
  | '-' :: rest => numericBody rest
  | l => numericBody l

/-- Whether an amount string carries a decimal separator; under the
RawRecord invariant this says the amount has a fractional part. -/
def hasSepChar (s : String) : Bool := s.data.any (fun c => c == '.' || c == ',')

/-- Value of a little-endian digit list; left inverse of `natDigitsRev`. -/
def ofDigitsRevNat : List Nat → Nat
  | [] => 0
  | d :: ds => d + 10 * ofDigitsRevNat ds

/-- The sequence number `map_fitid` hands to the next occurrence of a key:
0 for an unseen key, stored counter plus one otherwise. -/
def seqOf (m : FitidMap) (k : String) : Nat :=
  match fmLookup m k with
  | some s => s + 1
  | none => 0

/-- Number of records in a list that produce the key `k` in `map_fitid`. -/
def keyCount (k : String) (rs : List FitRec) : Nat :=
  (rs.filter (fun r => recKey r == some k)).length

/-- A record whose modern-form key is the account `"A"` followed by the
given sequence-number field. -/
def cexRec (volgnr : String) : FitRec := ⟨"A", volgnr, "1", "20180101"⟩

/-- Eleven records with key `"A1"` followed by one record with key
`"A11"`: the eleventh `"A1"` identifier and the first `"A11"` identifier
are both the string `"A110"`. -/
def cexRecords : List FitRec :=
  [cexRec "1", cexRec "1", cexRec "1", cexRec "1", cexRec "1", cexRec "1",
   cexRec "1", cexRec "1", cexRec "1", cexRec "1", cexRec "1", cexRec "11"]

/-- The identifiers the Identifier Generator emits for `cexRecords`. -/
def cexFitids : List String :=
  ["A10", "A11", "A12", "A13", "A14", "A15", "A16", "A17", "A18", "A19",
   "A110", "A110"]

/-- One leg of a concrete internal transfer: posted on `NL11`, destined
for `NL22`. -/
def wTxnA : Txn := ⟨"NL11", "NL22", "20230101", 0⟩

/-- The reciprocal leg: posted on `NL22`, destined for `NL11`, carrying
one date override. -/
def wTxnB : Txn := ⟨"NL22", "NL11", "20230101", 1⟩

/-- A two-row input holding both legs of one internal transfer. -/
def wTxns : List Txn := [wTxnA, wTxnB]

/-- A configured ordering putting `NL11` before `NL22`. -/
def wCfg : List String := ["NL11", "NL22"]

/-! ### General helper lemmas -/

/-- Strictness chaining for the code-point order: `a < b` and not `c < b`
give `a < c`. -/
theorem lexLt_trans_not : ∀ (a b c : List Char),
    lexLt a b = true → lexLt c b = false → lexLt a c = true := by
  intro a
  induction a with
  | nil =>
      intro b c h1 h2
      cases b with
      | nil => simp [lexLt] at h1
      | cons y bs =>
          cases c with
          | nil => simp [lexLt] at h2
          | cons z cs => simp [lexLt]
  | cons x l ih =>
      intro b c h1 h2
      cases b with
      | nil => simp [lexLt] at h1
      | cons y bs =>
          cases c with
          | nil => simp [lexLt] at h2
          | cons z cs =>
              simp only [lexLt] at h1 h2 ⊢
              by_cases hzy : z.toNat < y.toNat
              · rw [if_pos hzy] at h2; exact absurd h2 (by simp)
              · rw [if_neg hzy] at h2
                by_cases hxy : x.toNat < y.toNat
                · by_cases hyz : y.toNat < z.toNat
                  · have hxz : x.toNat < z.toNat := by omega
                    simp [hxz]
                  · have hxz : x.toNat < z.toNat := by omega
                    simp [hxz]
                · rw [if_neg hxy] at h1
                  by_cases hyx : y.toNat < x.toNat
                  · rw [if_pos hyx] at h1; exact absurd h1 (by simp)
                  · rw [if_neg hyx] at h1
                    by_cases hyz : y.toNat < z.toNat
                    · have hxz : x.toNat < z.toNat := by omega
                      simp [hxz]
                    · rw [if_neg hyz] at h2
                      have hxz : ¬ x.toNat < z.toNat := by omega
                      have hzx : ¬ z.toNat < x.toNat := by omega
                      rw [if_neg hxz, if_neg hzx]
                      exact ih bs cs h1 h2

/-! ### C7: posted-date override -/

/-- C7: with the `force_date_posted` key present, an enabled (truthy) flag
and differing dates give override count exactly 1 and the transaction date
with all dashes removed; equal dates give override count 0 and the
interest date with dashes removed, whatever the flag value is. -/
theorem map_date_posted_override (overrides : List (String × String)) (v : String)
    (hv : pyDictGet overrides "force_date_posted" = some v)
    (interestDate txnDate : String) :
    (v ≠ "" → interestDate ≠ txnDate →
      map_date_posted overrides interestDate txnDate =
        Except.ok (1, pyRemoveChars ['-'] txnDate)) ∧
    (interestDate = txnDate →
      map_date_posted overrides interestDate txnDate =
        Except.ok (0, pyRemoveChars ['-'] interestDate)) := by
  constructor
  · intro h1 h2
    simp only [map_date_posted, hv]
    rw [if_pos ⟨h1, h2⟩]
  · intro h
    simp only [map_date_posted, hv]
    rw [if_neg (fun hc => hc.2 h)]

/-- Witness for C7 at a concrete override table and date pair. -/
theorem map_date_posted_override_witness :
    map_date_posted [("force_date_posted", "true")] "2023-01-04" "2023-01-05" =
      Except.ok (1, pyRemoveChars ['-'] "2023-01-05") ∧
    map_date_posted [("force_date_posted", "true")] "2023-01-05" "2023-01-05" =
      Except.ok (0, pyRemoveChars ['-'] "2023-01-05") :=
  ⟨(map_date_posted_override [("force_date_posted", "true")] "true" rfl
      "2023-01-04" "2023-01-05").1 (by decide) (by decide),
   (map_date_posted_override [("force_date_posted", "true")] "true" rfl
      "2023-01-05" "2023-01-05").2 rfl⟩

/-! ### C2: missing configuration section -/

/-- C2 counterexample: a configuration that is present (it has an
`override` section) but is missing the recognized `accounts` section makes
`Cfg.__init__` raise `KeyError`, so the run fails rather than degrading to
an empty configured-account list. -/
theorem cfgInit_missing_accounts_fails :
    cfgInit (some ⟨[("override", [("force_date_posted", "true")])]⟩) =
      Except.error "KeyError: accounts" := rfl

/-- C2 amended: with a config file present but its `accounts` section
missing, `Cfg.__init__` raises `KeyError` (likewise for a missing
`override` section); only when no config file exists at all does the
configured-account list degrade to empty with the run proceeding. -/
theorem cfgInit_missing_section (cf : ConfigData) :
    (sectionLookup cf "accounts" = none →
      cfgInit (some cf) = Except.error "KeyError: accounts") ∧
    (∀ accs, sectionLookup cf "accounts" = some accs →
      sectionLookup cf "override" = none →
      cfgInit (some cf) = Except.error "KeyError: override") ∧
    cfgInit none = Except.ok ⟨[], []⟩ := by
  refine ⟨fun h => ?_, fun accs h1 h2 => ?_, rfl⟩
  · simp only [cfgInit, h]
  · simp only [cfgInit, h1, h2]

/-- Witness for C2's amended claim at concrete configuration data. -/
theorem cfgInit_missing_section_witness :
    cfgInit (some ⟨[("override", [])]⟩) = Except.error "KeyError: accounts" ∧
    cfgInit (some ⟨[("accounts", [("acc1", "a")])]⟩) =
      Except.error "KeyError: override" ∧
    cfgInit none = Except.ok ⟨[], []⟩ :=
  ⟨(cfgInit_missing_section ⟨[("override", [])]⟩).1 rfl,
   (cfgInit_missing_section ⟨[("accounts", [("acc1", "a")])]⟩).2.1
      [("acc1", "a")] rfl rfl,
   (cfgInit_missing_section ⟨[]⟩).2.2⟩

/-! ### C3: legacy/modern key switch -/

/-- C3: a posted date of `"20171231"` or earlier always selects the legacy
date+amount+marker key, whatever the sequence number is; a posted date of
`"20180101"` or later together with a non-empty sequence number always
selects the `account + volgnr` key. -/
theorem fitidKey_switch (account volgnr trnamt dtposted dcCode : String) :
    (pyStrLt "20171231" dtposted = false →
      fitidKey account volgnr trnamt dtposted dcCode =
        dtposted ++ stripAmountChars trnamt ++ dcCode) ∧
    (pyStrLt dtposted "20180101" = false → volgnr ≠ "" →
      fitidKey account volgnr trnamt dtposted dcCode = account ++ volgnr) := by
  constructor
  · intro h
    unfold fitidKey
    rw [h]
    simp
  · intro h hv
    have hlt : pyStrLt "20171231" dtposted = true :=
      lexLt_trans_not "20171231".data "20180101".data dtposted.data (by decide) h
    unfold fitidKey
    rw [hlt]
    simp [hv]

/-- Witness for C3 at concrete dates on both sides of the cutover. -/
theorem fitidKey_switch_witness :
    fitidKey "NL11RABO0123" "7" "-12.34" "20171231" "D" =
      "20171231" ++ stripAmountChars "-12.34" ++ "D" ∧
    fitidKey "NL11RABO0123" "7" "-12.34" "20180101" "D" = "NL11RABO0123" ++ "7" :=
  ⟨(fitidKey_switch "NL11RABO0123" "7" "-12.34" "20171231" "D").1 (by decide),
   (fitidKey_switch "NL11RABO0123" "7" "-12.34" "20180101" "D").2 (by decide)
      (by decide)⟩

/-! ### C8: decimal-separator round trip -/

/-- C8: on a RawRecord-invariant amount, mapping under one separator
preference and then the other rewrites exactly the decimal-separator
characters (to `,` resp. `.`) and leaves every other character — digits
and sign — unchanged in place. -/
theorem map_amount_round_trip (amt : String)
    (hnum : isNumericAmountStr amt = true) :
    (map_amount true (map_amount false amt)).data =
      amt.data.map (fun c => if c = '.' ∨ c = ',' then ',' else c) ∧
    (map_amount false (map_amount true amt)).data =
      amt.data.map (fun c => if c = '.' ∨ c = ',' then '.' else c) := by
  constructor
  · show (pyReplaceChar '.' ',' (pyReplaceChar ',' '.' amt)).data = _
    simp only [pyReplaceChar, List.map_map]
    apply List.map_congr_left
    intro c _
    by_cases h1 : c = ','
    · subst h1; simp
    · by_cases h2 : c = '.'
      · subst h2; simp
      · simp [Function.comp, h1, h2]
  · show (pyReplaceChar ',' '.' (pyReplaceChar '.' ',' amt)).data = _
    simp only [pyReplaceChar, List.map_map]
    apply List.map_congr_left
    intro c _
    by_cases h1 : c = ','
    · subst h1; simp
    · by_cases h2 : c = '.'
      · subst h2; simp
      · simp [Function.comp, h1, h2]

/-- Witness for C8 at a concrete signed decimal-comma amount. -/
theorem map_amount_round_trip_witness :
    (map_amount true (map_amount false "-12,34")).data =
      "-12,34".data.map (fun c => if c = '.' ∨ c = ',' then ',' else c) ∧
    (map_amount false (map_amount true "-12,34")).data =
      "-12,34".data.map (fun c => if c = '.' ∨ c = ',' then '.' else c) :=
  map_amount_round_trip "-12,34" (by decide)

/-! ### C5: suppressed-counterparty set -/

/-- Collecting configured accounts until the target is hit is the same as
taking the prefix before the target's first position. -/
theorem takeWhile_ne_eq_take (l : List String) (a : String) :
    l.takeWhile (fun x => x != a) = l.take (firstIdx a l) := by
  induction l with
  | nil => rfl
  | cons y ys ih =>
      by_cases h : y = a
      · subst h
        simp [List.takeWhile_cons, firstIdx]
      · simp [List.takeWhile_cons, firstIdx, h, ih]

/-- The account whose superiors are collected is never one of them. -/
theorem self_not_mem_takeWhile (l : List String) (a : String) :
    a ∉ l.takeWhile (fun x => x != a) := by
  induction l with
  | nil => simp
  | cons y ys ih =>
      by_cases h : y = a
      · subst h
        simp [List.takeWhile_cons]
      · simp only [List.takeWhile_cons]
        intro hmem
        rw [if_pos (by simp [h])] at hmem
        rcases List.mem_cons.mp hmem with he | hm
        · exact h he.symm
        · exact ih hm

/-- C5: for every ordering, processed set and account, the set computed by
`gather_transfer_accounts` has exactly the membership the spec describes
for the suppressed-counterparty set. -/
theorem gather_matches_spec (ordering processed : List String) (account x : String) :
    x ∈ gather_transfer_accounts ordering processed account ↔
      x ∈ suppressedCounterpartiesSpec ordering processed account := by
  unfold gather_transfer_accounts suppressedCounterpartiesSpec main_accounts
  simp only [List.mem_append]
  apply or_congr _ Iff.rfl
  by_cases h : account ∈ ordering
  · rw [if_pos (List.elem_iff.mpr h), if_pos h, ← takeWhile_ne_eq_take]
    simp only [List.mem_filter]
    constructor
    · intro hx
      refine ⟨hx, ?_⟩
      have hne : x ≠ account :=
        fun he => self_not_mem_takeWhile ordering account (he ▸ hx)
      simpa using hne
    · exact fun hx => hx.1
  · rw [if_neg (fun hc => h (List.elem_iff.mp hc)), if_neg h]

/-! ### Statement Assembler lemmas -/

/-- The inner per-account loop of `OfxWriter.run`, characterized: each
counter counts a filter of the transaction list and the emitted sequence
is that filter itself, appended to whatever the ledger held. -/
theorem foldl_stepTxn (tf : List String) (hb : Bool) (a : String) :
    ∀ (txns : List Txn) (init : AcctLedger),
      (txns.foldl (stepTxn tf hb a) init).txn_ctr =
          init.txn_ctr + (txns.filter (fun t => t.account == a)).length ∧
      (txns.foldl (stepTxn tf hb a) init).txn_skip =
          init.txn_skip +
            (txns.filter (fun t => t.account == a && skipTxn tf hb t)).length ∧
      (txns.foldl (stepTxn tf hb a) init).txn_processed =
          init.txn_processed +
            (txns.filter (fun t => t.account == a && !(skipTxn tf hb t))).length ∧
      (txns.foldl (stepTxn tf hb a) init).nr_overrides =
          init.nr_overrides +
            ((txns.filter (fun t => t.account == a && !(skipTxn tf hb t))).map
                Txn.nr_overrides).sum ∧
      (txns.foldl (stepTxn tf hb a) init).emitted =
          init.emitted ++ txns.filter (fun t => t.account == a && !(skipTxn tf hb t)) := by
  intro txns
  induction txns with
  | nil => intro init; simp
  | cons t ts ih =>
      intro init
      rw [List.foldl_cons]
      by_cases ha : (t.account == a) = true
      · by_cases hs : skipTxn tf hb t = true
        · have hstep : stepTxn tf hb a init t =
              { init with txn_ctr := init.txn_ctr + 1,
                          txn_skip := init.txn_skip + 1 } := by
            simp [stepTxn, ha, hs]
          rw [hstep]
          obtain ⟨ih1, ih2, ih3, ih4, ih5⟩ :=
            ih { init with txn_ctr := init.txn_ctr + 1, txn_skip := init.txn_skip + 1 }
          refine ⟨?_, ?_, ?_, ?_, ?_⟩ <;>
            simp [ih1, ih2, ih3, ih4, ih5, List.filter_cons, ha, hs] <;> omega
        · have hstep : stepTxn tf hb a init t =
              { init with txn_ctr := init.txn_ctr + 1,
                          txn_processed := init.txn_processed + 1,
                          nr_overrides := init.nr_overrides + t.nr_overrides,
                          emitted := init.emitted ++ [t] } := by
            simp [stepTxn, ha, hs]
          rw [hstep]
          obtain ⟨ih1, ih2, ih3, ih4, ih5⟩ :=
            ih { init with txn_ctr := init.txn_ctr + 1,
                           txn_processed := init.txn_processed + 1,
                           nr_overrides := init.nr_overrides + t.nr_overrides,
                           emitted := init.emitted ++ [t] }
          refine ⟨?_, ?_, ?_, ?_, ?_⟩ <;>
            simp [ih1, ih2, ih3, ih4, ih5, List.filter_cons, ha, hs] <;> omega
      · have hstep : stepTxn tf hb a init t = init := by
          simp [stepTxn, ha]
        rw [hstep]
        obtain ⟨ih1, ih2, ih3, ih4, ih5⟩ := ih init
        refine ⟨?_, ?_, ?_, ?_, ?_⟩ <;>
          simp [ih1, ih2, ih3, ih4, ih5, List.filter_cons, ha]

/-- Every entry of the outer loop is the inner loop run with some
processed-accounts set. -/
theorem runAccountsAux_mem (cfg : List String) (hb : Bool) (txns : List Txn) :
    ∀ (pending processed : List String) (p : String × AcctLedger),
      p ∈ runAccountsAux cfg hb txns processed pending →
      ∃ P, p = (p.1, processAccount cfg P hb txns p.1) := by
  intro pending
  induction pending with
  | nil => intro processed p hp; simp [runAccountsAux] at hp
  | cons a rest ih =>
      intro processed p hp
      simp only [runAccountsAux] at hp
      rcases List.mem_cons.mp hp with he | hm
      · exact ⟨processed, by rw [he]⟩
      · exact ih _ p hm

/-- Every pending account receives an entry in the outer loop, built from
the inner loop with some processed-accounts set. -/
theorem runAccountsAux_entry (cfg : List String) (hb : Bool) (txns : List Txn) :
    ∀ (pending processed : List String) (a : String), a ∈ pending →
      ∃ P, (a, processAccount cfg P hb txns a) ∈
        runAccountsAux cfg hb txns processed pending := by
  intro pending
  induction pending with
  | nil => intro processed a ha; cases ha
  | cons b rest ih =>
      intro processed a ha
      rcases List.mem_cons.mp ha with he | hm
      · subst he
        exact ⟨processed, by simp only [runAccountsAux]; exact List.mem_cons_self _ _⟩
      · obtain ⟨P, hmem⟩ := ih (processed ++ [b]) a hm
        exact ⟨P, by simp only [runAccountsAux]; exact List.mem_cons_of_mem _ hmem⟩

/-- Membership in the first-seen account fold. -/
theorem firstSeen_fold_mem (txns : List Txn) :
    ∀ (acc : List String) (x : String),
      (x ∈ txns.foldl
          (fun acc t => if acc.contains t.account then acc else acc ++ [t.account]) acc) ↔
        (x ∈ acc ∨ ∃ t ∈ txns, t.account = x) := by
  induction txns with
  | nil => intro acc x; simp
  | cons t ts ih =>
      intro acc x
      rw [List.foldl_cons]
      by_cases h : acc.contains t.account = true
      · rw [if_pos h, ih]
        constructor
        · rintro (hx | ⟨u, hu, hux⟩)
          · exact Or.inl hx
          · exact Or.inr ⟨u, List.mem_cons_of_mem _ hu, hux⟩
        · rintro (hx | ⟨u, hu, hux⟩)
          · exact Or.inl hx
          · rcases List.mem_cons.mp hu with he | hm
            · subst he
              rw [hux] at h
              exact Or.inl (List.elem_iff.mp h)
            · exact Or.inr ⟨u, hm, hux⟩
      · rw [if_neg h, ih]
        constructor
        · rintro (hx | ⟨u, hu, hux⟩)
          · rcases List.mem_append.mp hx with hl | hr
            · exact Or.inl hl
            · exact Or.inr ⟨t, List.mem_cons_self _ _, (List.mem_singleton.mp hr).symm⟩
          · exact Or.inr ⟨u, List.mem_cons_of_mem _ hu, hux⟩
        · rintro (hx | ⟨u, hu, hux⟩)
          · exact Or.inl (List.mem_append.mpr (Or.inl hx))
          · rcases List.mem_cons.mp hu with he | hm
            · subst he
              exact Or.inl (List.mem_append.mpr (Or.inr (by simp [hux])))
            · exact Or.inr ⟨u, hm, hux⟩

/-- The first-seen account fold keeps its accumulator duplicate-free. -/
theorem firstSeen_fold_nodup (txns : List Txn) :
    ∀ acc : List String, acc.Nodup →
      (txns.foldl
        (fun acc t => if acc.contains t.account then acc else acc ++ [t.account]) acc).Nodup := by
  induction txns with
  | nil => intro acc h; simpa
  | cons t ts ih =>
      intro acc h
      rw [List.foldl_cons]
      by_cases hc : acc.contains t.account = true
      · rw [if_pos hc]; exact ih acc h
      · rw [if_neg hc]
        apply ih
        have hnm : t.account ∉ acc := fun hm => hc (List.elem_iff.mpr hm)
        simp [List.nodup_append, h, hnm]

/-- Every transaction's account occurs in the first-seen list. -/
theorem account_mem_firstSeen (txns : List Txn) (t : Txn) (ht : t ∈ txns) :
    t.account ∈ firstSeen txns :=
  (firstSeen_fold_mem txns [] t.account).mpr (Or.inr ⟨t, ht, rfl⟩)

/-- The first-seen account list is duplicate-free. -/
theorem firstSeen_nodup (txns : List Txn) : (firstSeen txns).Nodup :=
  firstSeen_fold_nodup txns [] List.nodup_nil

/-- Summing an equality indicator over a duplicate-free list containing
the probed element gives exactly one. -/
theorem sum_indicator_nodup (x : String) :
    ∀ L : List String, L.Nodup → x ∈ L →
      (L.map (fun a => if x == a then (1 : Nat) else 0)).sum = 1 := by
  intro L
  induction L with
  | nil => intro _ h; cases h
  | cons b rest ih =>
      intro hnd hx
      obtain ⟨hnb, hndr⟩ := List.nodup_cons.mp hnd
      rcases List.mem_cons.mp hx with he | hm
      · subst he
        have hz : ((rest.map fun a => if x == a then (1 : Nat) else 0)).sum = 0 := by
          apply List.sum_eq_zero
          intro y hy
          rcases List.mem_map.mp hy with ⟨a, ha, hay⟩
          have hne : x ≠ a := fun hxa => hnb (by rw [hxa]; exact ha)
          rw [← hay, if_neg (by simpa using hne)]
        rw [List.map_cons, List.sum_cons, hz, if_pos (by simp)]
      · have hne : x ≠ b := fun hxa => hnb (by rw [← hxa]; exact hm)
        rw [List.map_cons, List.sum_cons, if_neg (by simpa using hne),
          ih hndr hm]

/-- A duplicate-free account list covering all transactions partitions
them: summing the per-account counts gives the total. -/
theorem sum_counts_eq_length (txns : List Txn) :
    ∀ L : List String, L.Nodup → (∀ t ∈ txns, t.account ∈ L) →
      (L.map (fun a => (txns.filter (fun t => t.account == a)).length)).sum =
        txns.length := by
  induction txns with
  | nil => intro L _ _; simp
  | cons t ts ih =>
      intro L hnd hcov
      have hcov' : ∀ u ∈ ts, u.account ∈ L :=
        fun u hu => hcov u (List.mem_cons_of_mem _ hu)
      have hmem : t.account ∈ L := hcov t (List.mem_cons_self _ _)
      have hmap : L.map (fun a => ((t :: ts).filter (fun u => u.account == a)).length) =
          L.map (fun a =>
            (if t.account == a then 1 else 0) +
              (ts.filter (fun u => u.account == a)).length) := by
        apply List.map_congr_left
        intro a _
        by_cases h : (t.account == a) = true
        · simp [List.filter_cons, h]
          omega
        · simp [List.filter_cons, h]
      rw [hmap, List.sum_map_add, ih L hnd hcov',
        sum_indicator_nodup t.account L hnd hmem]
      simp [List.length_cons]
      omega

/-- A filter's length splits over any second predicate. -/
theorem length_filter_split {α : Type} (l : List α) (p q : α → Bool) :
    (l.filter p).length =
      (l.filter (fun x => p x && q x)).length +
        (l.filter (fun x => p x && !(q x))).length := by
  induction l with
  | nil => rfl
  | cons x xs ih =>
      by_cases hp : p x = true
      · by_cases hq : q x = true
        · simp [List.filter_cons, hp, hq, ih]
          omega
        · simp [List.filter_cons, hp, hq, ih]
          omega
      · simp [List.filter_cons, hp, ih]

/-! ### C10: ledger counter invariant -/

/-- C10: after the assembler finishes, every encountered account's total
counter equals skip plus processed, and also equals the number of input
transactions on that account, in either emission mode. -/
theorem ledger_counters (configAccounts : List String) (homebank : Bool)
    (txns : List Txn) (a : String) (led : AcctLedger)
    (h : (a, led) ∈ runAccounts configAccounts homebank txns) :
    led.txn_ctr = led.txn_skip + led.txn_processed ∧
    led.txn_ctr = (txns.filter (fun t => t.account == a)).length := by
  obtain ⟨P, hp⟩ :=
    runAccountsAux_mem configAccounts homebank txns (firstSeen txns) [] (a, led) h
  have hled : led = processAccount configAccounts P homebank txns a :=
    congrArg Prod.snd hp
  obtain ⟨h1, h2, h3, _, _⟩ := foldl_stepTxn
    (gather_transfer_accounts configAccounts P a) homebank a txns ⟨0, 0, 0, 0, []⟩
  rw [hled]
  unfold processAccount
  refine ⟨?_, ?_⟩
  · rw [h1, h2, h3]
    simp only [Nat.zero_add]
    exact length_filter_split txns (fun t => t.account == a)
      (skipTxn (gather_transfer_accounts configAccounts P a) homebank)
  · rw [h1]
    simp only [Nat.zero_add]

/-- Witness for C10: the skipped-transfer account of the two-leg example
still satisfies both counter identities. -/
theorem ledger_counters_witness :
    (⟨1, 1, 0, 0, []⟩ : AcctLedger).txn_ctr =
        (⟨1, 1, 0, 0, []⟩ : AcctLedger).txn_skip +
          (⟨1, 1, 0, 0, []⟩ : AcctLedger).txn_processed ∧
    (⟨1, 1, 0, 0, []⟩ : AcctLedger).txn_ctr =
      (wTxns.filter (fun t => t.account == "NL22")).length :=
  ledger_counters wCfg false wTxns "NL22" ⟨1, 1, 0, 0, []⟩ (by decide)

/-! ### C6: dual-leg (HomeBank) mode keeps everything -/

/-- C6: in HomeBank mode no transaction is suppressed: every account's
skip counter is 0, every account's emitted sequence is all of its
transactions (so both legs of every transfer appear), and the processed
counters over all accounts sum to the number of transactions read. -/
theorem homebank_keeps_everything (configAccounts : List String) (txns : List Txn) :
    (∀ p ∈ runAccounts configAccounts true txns,
        p.2.txn_skip = 0 ∧
        p.2.emitted = txns.filter (fun t => t.account == p.1)) ∧
    ((runAccounts configAccounts true txns).map
        (fun p => p.2.txn_processed)).sum = txns.length := by
  constructor
  · intro p hp
    obtain ⟨P, hp2⟩ :=
      runAccountsAux_mem configAccounts true txns (firstSeen txns) [] p hp
    have hled : p.2 = processAccount configAccounts P true txns p.1 :=
      congrArg Prod.snd hp2
    obtain ⟨_, h2, _, _, h5⟩ := foldl_stepTxn
      (gather_transfer_accounts configAccounts P p.1) true p.1 txns ⟨0, 0, 0, 0, []⟩
    constructor
    · rw [hled]
      unfold processAccount
      rw [h2]
      have hnil : txns.filter
          (fun t => t.account == p.1 &&
            skipTxn (gather_transfer_accounts configAccounts P p.1) true t) = [] := by
        apply List.filter_eq_nil_iff.mpr
        intro t _
        simp [skipTxn]
      rw [hnil]
      rfl
    · rw [hled]
      unfold processAccount
      rw [h5]
      simp only [List.nil_append]
      apply List.filter_congr
      intro t _
      simp [skipTxn]
  · have hmap : ∀ (pending processed : List String),
        (runAccountsAux configAccounts true txns processed pending).map
            (fun p => p.2.txn_processed) =
          pending.map (fun a => (txns.filter (fun t => t.account == a)).length) := by
      intro pending
      induction pending with
      | nil => intro processed; rfl
      | cons b rest ih =>
          intro processed
          simp only [runAccountsAux, List.map_cons]
          rw [ih]
          congr 1
          obtain ⟨_, _, h3, _, _⟩ := foldl_stepTxn
            (gather_transfer_accounts configAccounts processed b) true b txns
            ⟨0, 0, 0, 0, []⟩
          unfold processAccount
          rw [h3]
          simp only [Nat.zero_add]
          apply congrArg List.length
          apply List.filter_congr
          intro t _
          simp [skipTxn]
    unfold runAccounts
    rw [hmap]
    exact sum_counts_eq_length txns (firstSeen txns) (firstSeen_nodup txns)
      (fun t ht => account_mem_firstSeen txns t ht)

/-- Witness for C6 at the concrete two-leg transfer input: the first
account's entry keeps its leg and nothing is skipped, and both processed
counters sum to the transaction count. -/
theorem homebank_keeps_everything_witness :
    ((("NL11", (⟨1, 0, 1, 0, [wTxnA]⟩ : AcctLedger)) :
        String × AcctLedger).2.txn_skip = 0 ∧
      (("NL11", (⟨1, 0, 1, 0, [wTxnA]⟩ : AcctLedger)) :
        String × AcctLedger).2.emitted =
        wTxns.filter (fun t => t.account ==
          (("NL11", (⟨1, 0, 1, 0, [wTxnA]⟩ : AcctLedger)) :
            String × AcctLedger).1)) ∧
    ((runAccounts wCfg true wTxns).map (fun p => p.2.txn_processed)).sum =
      wTxns.length :=
  ⟨(homebank_keeps_everything wCfg wTxns).1
      ("NL11", ⟨1, 0, 1, 0, [wTxnA]⟩) (by decide),
   (homebank_keeps_everything wCfg wTxns).2⟩

/-! ### C4: single-leg transfer deduplication -/

/-- Membership in the collected superior prefix pushes the first position
strictly below the boundary account's first position. -/
theorem mem_takeWhile_firstIdx_lt (l : List String) (a x : String)
    (h : x ∈ l.takeWhile (fun y => y != a)) : firstIdx x l < firstIdx a l := by
  induction l with
  | nil => simp at h
  | cons y ys ih =>
      by_cases hy : y = a
      · subst hy
        simp [List.takeWhile_cons] at h
      · rw [List.takeWhile_cons, if_pos (by simpa using hy)] at h
        rcases List.mem_cons.mp h with he | hm
        · subst he
          simp [firstIdx, hy]
        · have hrec := ih hm
          by_cases hxy : y = x
          · have hxa : x ≠ a := by rw [← hxy]; exact hy
            simp [firstIdx, hxy, hxa]
          · simp only [firstIdx, if_neg hxy, if_neg hy]
            omega

/-- Conversely, an account of the ordering whose first position is
strictly below the boundary's first position lands in the collected
prefix. -/
theorem firstIdx_lt_mem_takeWhile (l : List String) (a x : String)
    (hx : x ∈ l) (h : firstIdx x l < firstIdx a l) :
    x ∈ l.takeWhile (fun y => y != a) := by
  induction l with
  | nil => cases hx
  | cons y ys ih =>
      by_cases hy : y = a
      · subst hy
        exfalso
        by_cases hxy : y = x
        · simp [firstIdx, hxy] at h
        · simp [firstIdx, hxy] at h
      · rw [List.takeWhile_cons, if_pos (by simpa using hy)]
        by_cases hxy : y = x
        · exact List.mem_cons.mpr (Or.inl hxy.symm)
        · apply List.mem_cons_of_mem
          apply ih
          · rcases List.mem_cons.mp hx with he | hm
            · exact absurd he.symm hxy
            · exact hm
          · simp only [firstIdx, if_neg hxy, if_neg hy] at h
            omega

/-- C4: in single-leg mode, when both legs of an internal transfer between
two configured accounts are in the input, the leg posted on the
earlier-ordered account is emitted and the reciprocal leg is emitted
nowhere — for every arrangement of the input, hence for every first-seen
processing order of the two accounts. -/
theorem transfer_single_leg (configAccounts : List String) (txns : List Txn)
    (A B : String) (tA tB : Txn)
    (hAB : A ≠ B) (hA : A ∈ configAccounts) (hB : B ∈ configAccounts)
    (hord : firstIdx A configAccounts < firstIdx B configAccounts)
    (htAa : tA.account = A) (htAt : tA.accountto = B)
    (htBa : tB.account = B) (htBt : tB.accountto = A)
    (htAin : tA ∈ txns) :
    (∃ led, (A, led) ∈ runAccounts configAccounts false txns ∧ tA ∈ led.emitted) ∧
    (∀ p ∈ runAccounts configAccounts false txns, tB ∉ p.2.emitted) := by
  have hBnotin : ∀ P : List String,
      (gather_transfer_accounts configAccounts P A).contains B = false := by
    intro P
    rw [Bool.eq_false_iff]
    intro hc
    have hmem : B ∈ gather_transfer_accounts configAccounts P A :=
      List.elem_iff.mp hc
    unfold gather_transfer_accounts at hmem
    rw [if_pos (List.elem_iff.mpr hA)] at hmem
    rcases List.mem_append.mp hmem with hl | hr
    · have := mem_takeWhile_firstIdx_lt configAccounts A B hl
      omega
    · have hnc := (List.mem_filter.mp hr).2
      have : B ∉ configAccounts := by simpa [List.elem_iff] using hnc
      exact this hB
  have hAin2 : ∀ P : List String,
      (gather_transfer_accounts configAccounts P B).contains A = true := by
    intro P
    apply List.elem_iff.mpr
    unfold gather_transfer_accounts
    rw [if_pos (List.elem_iff.mpr hB)]
    apply List.mem_append.mpr
    left
    exact firstIdx_lt_mem_takeWhile configAccounts B A hA hord
  constructor
  · have hAfs : A ∈ firstSeen txns := htAa ▸ account_mem_firstSeen txns tA htAin
    obtain ⟨P, hmem⟩ :=
      runAccountsAux_entry configAccounts false txns (firstSeen txns) [] A hAfs
    refine ⟨processAccount configAccounts P false txns A, hmem, ?_⟩
    obtain ⟨_, _, _, _, h5⟩ := foldl_stepTxn
      (gather_transfer_accounts configAccounts P A) false A txns ⟨0, 0, 0, 0, []⟩
    unfold processAccount
    rw [h5]
    simp only [List.nil_append]
    apply List.mem_filter.mpr
    refine ⟨htAin, ?_⟩
    have hsk : skipTxn (gather_transfer_accounts configAccounts P A) false tA = false := by
      unfold skipTxn
      rw [htAt, hBnotin P]
      rfl
    simp [htAa, hsk]
  · intro p hp
    obtain ⟨P, hp2⟩ :=
      runAccountsAux_mem configAccounts false txns (firstSeen txns) [] p hp
    have hled : p.2 = processAccount configAccounts P false txns p.1 :=
      congrArg Prod.snd hp2
    rw [hled]
    obtain ⟨_, _, _, _, h5⟩ := foldl_stepTxn
      (gather_transfer_accounts configAccounts P p.1) false p.1 txns ⟨0, 0, 0, 0, []⟩
    unfold processAccount
    rw [h5]
    simp only [List.nil_append]
    intro hmem
    obtain ⟨_, hpred⟩ := List.mem_filter.mp hmem
    obtain ⟨hacc, hskip⟩ := Bool.and_eq_true_iff.mp hpred
    have hp1 : p.1 = B := by
      have := beq_iff_eq.mp hacc
      rw [htBa] at this
      exact this.symm
    rw [hp1] at hskip
    unfold skipTxn at hskip
    rw [htBt, hAin2 P] at hskip
    simp at hskip

/-- Witness for C4 at the concrete two-leg transfer input with ordering
`NL11` before `NL22`. -/
theorem transfer_single_leg_witness :
    (∃ led, ("NL11", led) ∈ runAccounts wCfg false wTxns ∧ wTxnA ∈ led.emitted) ∧
    (∀ p ∈ runAccounts wCfg false wTxns, wTxnB ∉ p.2.emitted) :=
  transfer_single_leg wCfg wTxns "NL11" "NL22" wTxnA wTxnB
    (by decide) (by decide) (by decide) (by decide)
    rfl rfl rfl rfl (by decide)

/-! ### C9: decimal-comma amounts break identifier generation -/

/-- The first element surviving `dropWhile` falsifies the predicate. -/
theorem dropWhile_head_false {α : Type} (p : α → Bool) :
    ∀ (l : List α) (x : α) (xs : List α), l.dropWhile p = x :: xs → p x = false := by
  intro l
  induction l with
  | nil => intro x xs h; simp at h
  | cons y ys ih =>
      intro x xs h
      rw [List.dropWhile_cons] at h
      by_cases hy : p y = true
      · rw [if_pos hy] at h
        exact ih x xs h
      · rw [if_neg hy] at h
        injection h with h1 _
        subst h1
        simpa using hy

/-- `takeWhile` over a satisfied block followed by a falsifying element
returns exactly the block. -/
theorem takeWhile_append_cons {α : Type} (q : α → Bool) (y : α) (ys : List α) :
    ∀ xs : List α, (∀ x ∈ xs, q x = true) → q y = false →
      (xs ++ y :: ys).takeWhile q = xs := by
  intro xs
  induction xs with
  | nil =>
      intro _ hy
      simp [List.takeWhile_cons, hy]
  | cons a l ih =>
      intro hx hy
      rw [List.cons_append, List.takeWhile_cons, if_pos (hx a (by simp))]
      rw [ih (fun x hx2 => hx x (by simp [hx2])) hy]

/-- `dropWhile` over a satisfied block followed by a falsifying element
returns the falsifying element and its tail. -/
theorem dropWhile_append_cons {α : Type} (q : α → Bool) (y : α) (ys : List α) :
    ∀ xs : List α, (∀ x ∈ xs, q x = true) → q y = false →
      (xs ++ y :: ys).dropWhile q = y :: ys := by
  intro xs
  induction xs with
  | nil =>
      intro _ hy
      simp [List.dropWhile_cons, hy]
  | cons a l ih =>
      intro hx hy
      rw [List.cons_append, List.dropWhile_cons, if_pos (hx a (by simp))]
      exact ih (fun x hx2 => hx x (by simp [hx2])) hy

/-- A list containing a non-digit is not all digits. -/
theorem all_isDigit_false_of_mem (l : List Char) (c : Char) (hc : c ∈ l)
    (hd : c.isDigit = false) : l.all Char.isDigit = false := by
  rw [Bool.eq_false_iff]
  intro hall
  have := List.all_eq_true.mp hall c hc
  rw [hd] at this
  exact Bool.false_ne_true this

/-- A decimal comma anywhere in the unsigned body makes the float parse
fail, as in Python. -/
theorem pyFloatBody_comma_none (l : List Char) (hc : ',' ∈ l) :
    pyFloatBody l = none := by
  unfold pyFloatBody
  cases hrest : l.dropWhile (fun c => !(c == '.')) with
  | nil =>
      rw [all_isDigit_false_of_mem l ',' hc (by decide)]
      simp
  | cons x fp =>
      have hx : (!(x == '.')) = false := dropWhile_head_false _ l x fp hrest
      have hxdot : x = '.' := by simpa using hx
      have hsplit : l.takeWhile (fun c => !(c == '.')) ++ x :: fp = l := by
        rw [← hrest]
        exact List.takeWhile_append_dropWhile _ l
      have hmem : ',' ∈ l.takeWhile (fun c => !(c == '.')) ∨ ',' ∈ fp := by
        rcases List.mem_append.mp (by rw [hsplit]; exact hc) with h1 | h2
        · exact Or.inl h1
        · rcases List.mem_cons.mp h2 with he | hm
          · rw [hxdot] at he
            exact absurd he (by decide)
          · exact Or.inr hm
      rcases hmem with h1 | h2
      · have hfa := all_isDigit_false_of_mem _ ',' h1 (by decide)
        simp [hfa]
      · have hfa := all_isDigit_false_of_mem fp ',' h2 (by decide)
        simp [hfa]

/-- A decimal comma anywhere in the amount string makes the Python float
parse raise. -/
theorem pyFloat_comma_none (s : String) (hc : ',' ∈ s.data) : pyFloat s = none := by
  unfold pyFloat
  split
  · rename_i rest heq
    rw [heq] at hc
    rcases List.mem_cons.mp hc with he | hm
    · exact absurd he (by decide)
    · rw [pyFloatBody_comma_none rest hm]
      rfl
  · rename_i rest heq
    rw [heq] at hc
    rcases List.mem_cons.mp hc with he | hm
    · exact absurd he (by decide)
    · exact pyFloatBody_comma_none rest hm
  · exact pyFloatBody_comma_none _ hc

/-- Under the comma preference, an amount with a separator maps to a
string containing a comma. -/
theorem map_amount_comma_mem (amt : String) (hsep : hasSepChar amt = true) :
    ',' ∈ (map_amount true amt).data := by
  unfold hasSepChar at hsep
  rw [List.any_eq_true] at hsep
  obtain ⟨c, hc, hcs⟩ := hsep
  show ',' ∈ (pyReplaceChar '.' ',' amt).data
  unfold pyReplaceChar
  apply List.mem_map.mpr
  refine ⟨c, hc, ?_⟩
  rcases Bool.or_eq_true_iff.mp hcs with h1 | h1
  · rw [beq_iff_eq.mp h1]
    rfl
  · rw [beq_iff_eq.mp h1]
    rfl

/-- `map_fitid` fails exactly with the float conversion error when the
amount does not parse. -/
theorem map_fitid_error_of_parse_fail (m : FitidMap)
    (account volgnr trnamt dtposted : String) (h : pyFloat trnamt = none) :
    map_fitid m account volgnr trnamt dtposted =
      Except.error ("could not convert string to float: " ++ trnamt) := by
  unfold map_fitid
  rw [h]

/-- `map_fitid` succeeds whenever the amount parses. -/
theorem map_fitid_ok_of_parse (m : FitidMap)
    (account volgnr trnamt dtposted : String) (v : Rat)
    (h : pyFloat trnamt = some v) :
    ∃ res, map_fitid m account volgnr trnamt dtposted = Except.ok res := by
  unfold map_fitid
  rw [h]
  exact ⟨_, rfl⟩

/-- A record whose amount does not parse makes the whole Identifier
Generator run fail, wherever it sits in the sequence. -/
theorem runFitidsAux_error_of_mem (r : FitRec) (hr : pyFloat r.trnamt = none) :
    ∀ (rs : List FitRec) (m : FitidMap), r ∈ rs →
      ∃ e, runFitidsAux m rs = Except.error e := by
  intro rs
  induction rs with
  | nil => intro m h; cases h
  | cons r0 rs' ih =>
      intro m h
      rcases List.mem_cons.mp h with he | hm
      · subst he
        refine ⟨"could not convert string to float: " ++ r.trnamt, ?_⟩
        simp only [runFitidsAux]
        rw [map_fitid_error_of_parse_fail m _ _ _ _ hr]
      · cases hm0 : map_fitid m r0.account r0.volgnr r0.trnamt r0.dtposted with
        | error e =>
            refine ⟨e, ?_⟩
            simp only [runFitidsAux]
            rw [hm0]
        | ok pr =>
            obtain ⟨fid, m2⟩ := pr
            obtain ⟨e, he⟩ := ih m2 hm
            refine ⟨e, ?_⟩
            simp only [runFitidsAux]
            rw [hm0]
            simp [he]

/-- Mapping the comma-to-point substitution over digits changes nothing. -/
theorem map_toPoint_digits (l : List Char) (h : l.all Char.isDigit = true) :
    l.map (fun c => if c = ',' then '.' else c) = l := by
  have hid : ∀ c ∈ l, (fun c => if c = ',' then '.' else c) c = id c := by
    intro c hc
    have hd := List.all_eq_true.mp h c hc
    have : c ≠ ',' := by
      intro he
      rw [he] at hd
      exact absurd hd (by decide)
    simp [this]
  rw [List.map_congr_left hid, List.map_id]

/-- An all-digit non-empty body parses. -/
theorem pyFloatBody_digits (l : List Char) (hne : l ≠ [])
    (hall : l.all Char.isDigit = true) : ∃ v, pyFloatBody l = some v := by
  unfold pyFloatBody
  have hdw : l.dropWhile (fun c => !(c == '.')) = [] := by
    rw [List.dropWhile_eq_nil_iff]
    intro x hx
    have hd := List.all_eq_true.mp hall x hx
    have hxd : x ≠ '.' := by
      intro he
      rw [he] at hd
      exact absurd hd (by decide)
    simp [hxd]
  rw [hdw, hall, List.isEmpty_eq_false.mpr hne]
  exact ⟨_, rfl⟩

/-- A digits-point-digits body parses. -/
theorem pyFloatBody_point (ip fp : List Char) (hipd : ip.all Char.isDigit = true)
    (hfpd : fp.all Char.isDigit = true) (hipne : ip ≠ []) :
    ∃ v, pyFloatBody (ip ++ '.' :: fp) = some v := by
  have hq : ∀ x ∈ ip, (!(x == '.')) = true := by
    intro x hx
    have hd := List.all_eq_true.mp hipd x hx
    have hxd : x ≠ '.' := by
      intro he
      rw [he] at hd
      exact absurd hd (by decide)
    simp [hxd]
  unfold pyFloatBody
  rw [dropWhile_append_cons _ '.' fp ip hq (by decide),
    takeWhile_append_cons _ '.' fp ip hq (by decide)]
  simp [hipd, hfpd, List.isEmpty_eq_false.mpr hipne]

/-- Structure of the RawRecord amount invariant's unsigned body: either
all digits, or digits around one `.`-or-`,` separator. -/
theorem numericBody_cases (l : List Char) (h : numericBody l = true) :
    (l ≠ [] ∧ l.all Char.isDigit = true) ∨
    (∃ ip sep fp, l = ip ++ sep :: fp ∧ (sep = '.' ∨ sep = ',') ∧
      ip ≠ [] ∧ fp ≠ [] ∧ ip.all Char.isDigit = true ∧
      fp.all Char.isDigit = true) := by
  unfold numericBody at h
  cases hrest : l.dropWhile (fun c => !(c == '.' || c == ',')) with
  | nil =>
      rw [hrest] at h
      left
      simp only [Bool.and_eq_true, Bool.not_eq_true'] at h
      exact ⟨by simpa [List.isEmpty_iff] using h.1, h.2⟩
  | cons x fp =>
      rw [hrest] at h
      right
      have hx : (!(x == '.' || x == ',')) = false :=
        dropWhile_head_false _ l x fp hrest
      have hx2 : (x == '.' || x == ',') = true := by
        cases hb : (x == '.' || x == ',') with
        | false => rw [hb] at hx; simp at hx
        | true => rfl
      have hxs : x = '.' ∨ x = ',' := by
        rcases Bool.or_eq_true_iff.mp hx2 with h1 | h1
        · exact Or.inl (beq_iff_eq.mp h1)
        · exact Or.inr (beq_iff_eq.mp h1)
      simp only [Bool.and_eq_true, Bool.not_eq_true'] at h
      refine ⟨l.takeWhile (fun c => !(c == '.' || c == ',')), x, fp, ?_, hxs,
        ?_, ?_, ?_, ?_⟩
      · rw [← hrest]
        exact (List.takeWhile_append_dropWhile _ l).symm
      · simpa [List.isEmpty_iff] using h.1.1.1
      · simpa [List.isEmpty_iff] using h.1.2
      · exact h.1.1.2
      · exact h.2

/-- Under the invariant the body starts with a digit. -/
theorem numericBody_head_digit (l : List Char) (h : numericBody l = true) :
    ∃ c rest2, l = c :: rest2 ∧ c.isDigit = true := by
  rcases numericBody_cases l h with ⟨hne, hall⟩ | ⟨ip, sep, fp, heq, _, hipne, _, hipd, _⟩
  · cases l with
    | nil => cases hne rfl
    | cons c r => exact ⟨c, r, rfl, List.all_eq_true.mp hall c (by simp)⟩
  · cases ip with
    | nil => cases hipne rfl
    | cons c r =>
        refine ⟨c, r ++ sep :: fp, by simp [heq], ?_⟩
        exact List.all_eq_true.mp hipd c (by simp)

/-- The unsigned body, mapped to point preference, always parses. -/
theorem pyFloatBody_map_some (l : List Char) (h : numericBody l = true) :
    ∃ v, pyFloatBody (l.map (fun c => if c = ',' then '.' else c)) = some v := by
  rcases numericBody_cases l h with ⟨hne, hall⟩ |
    ⟨ip, sep, fp, heq, hsep, hipne, _, hipd, hfpd⟩
  · rw [map_toPoint_digits l hall]
    exact pyFloatBody_digits l hne hall
  · subst heq
    rw [List.map_append, List.map_cons, map_toPoint_digits ip hipd,
      map_toPoint_digits fp hfpd]
    have hsep2 : (if sep = ',' then '.' else sep) = '.' := by
      rcases hsep with h1 | h1 <;> simp [h1]
    rw [hsep2]
    exact pyFloatBody_point ip fp hipd hfpd hipne

/-- Under the point preference every invariant-satisfying amount parses. -/
theorem pyFloat_toPoint_some (amt : String) (hnum : isNumericAmountStr amt = true) :
    ∃ v, pyFloat (map_amount false amt) = some v := by
  have hdata : (map_amount false amt).data =
      amt.data.map (fun c => if c = ',' then '.' else c) := rfl
  unfold isNumericAmountStr at hnum
  split at hnum
  · rename_i rest heq
    have hmapped : (map_amount false amt).data =
        '-' :: rest.map (fun c => if c = ',' then '.' else c) := by
      rw [hdata, heq]
      rfl
    obtain ⟨v, hv⟩ := pyFloatBody_map_some rest hnum
    refine ⟨-v, ?_⟩
    unfold pyFloat
    split
    · rename_i rest2 heq2
      rw [hmapped] at heq2
      injection heq2 with _ h2
      rw [← h2, hv]
      rfl
    · rename_i rest2 heq2
      rw [hmapped] at heq2
      injection heq2 with h1 _
      exact absurd h1 (by decide)
    · rename_i hn1 _
      exact absurd hmapped (hn1 _)
  · rename_i l hne1
    obtain ⟨c, rest2, hcr, hcd⟩ := numericBody_head_digit amt.data hnum
    have hcdash : c ≠ '-' := by
      intro he
      rw [he] at hcd
      exact absurd hcd (by decide)
    have hcplus : c ≠ '+' := by
      intro he
      rw [he] at hcd
      exact absurd hcd (by decide)
    have hmapped : (map_amount false amt).data =
        c :: rest2.map (fun cc => if cc = ',' then '.' else cc) := by
      rw [hdata, hcr, List.map_cons]
      have : (if c = ',' then '.' else c) = c := by
        have : c ≠ ',' := by
          intro he
          rw [he] at hcd
          exact absurd hcd (by decide)
        simp [this]
      rw [this]
    obtain ⟨v, hv⟩ := pyFloatBody_map_some amt.data hnum
    refine ⟨v, ?_⟩
    unfold pyFloat
    split
    · rename_i rest3 heq2
      rw [hmapped] at heq2
      injection heq2 with h1 _
      exact absurd h1 hcdash
    · rename_i rest3 heq2
      rw [hmapped] at heq2
      injection heq2 with h1 _
      exact absurd h1 hcplus
    · rw [← hdata] at hv
      exact hv

/-- Without a separator, both preferences leave the amount unchanged. -/
theorem map_amount_id_of_no_sep (amt : String) (hnosep : hasSepChar amt = false) :
    map_amount true amt = amt ∧ map_amount false amt = amt := by
  have hch : ∀ c ∈ amt.data, c ≠ '.' ∧ c ≠ ',' := by
    intro c hc
    have hfa : (c == '.' || c == ',') = false := by
      cases hb : (c == '.' || c == ',') with
      | false => rfl
      | true =>
          exfalso
          have hsep : hasSepChar amt = true := by
            unfold hasSepChar
            rw [List.any_eq_true]
            exact ⟨c, hc, hb⟩
          rw [hsep] at hnosep
          exact Bool.noConfusion hnosep
    constructor
    · intro he
      rw [he] at hfa
      exact absurd hfa (by decide)
    · intro he
      rw [he] at hfa
      exact absurd hfa (by decide)
  constructor
  · show String.mk (amt.data.map (fun c => if c = '.' then ',' else c)) = amt
    have : amt.data.map (fun c => if c = '.' then ',' else c) = amt.data := by
      have hid : ∀ c ∈ amt.data, (fun c => if c = '.' then ',' else c) c = id c := by
        intro c hc
        simp [(hch c hc).1]
      rw [List.map_congr_left hid, List.map_id]
    rw [this]
  · show String.mk (amt.data.map (fun c => if c = ',' then '.' else c)) = amt
    have : amt.data.map (fun c => if c = ',' then '.' else c) = amt.data := by
      have hid : ∀ c ∈ amt.data, (fun c => if c = ',' then '.' else c) c = id c := by
        intro c hc
        simp [(hch c hc).2]
      rw [List.map_congr_left hid, List.map_id]
    rw [this]

/-- C9: with the decimal-comma preference, a fractional invariant amount
maps to a comma-bearing string whose float parse inside `map_fitid` fails,
and any run containing such a record fails; identifier generation succeeds
for every invariant amount under the point preference, and for
integer-valued amounts under either preference. -/
theorem comma_pref_breaks_fitid (amt : String) (hnum : isNumericAmountStr amt = true)
    (fitids : FitidMap) (account volgnr dtposted : String) :
    (hasSepChar amt = true →
      (map_amount true amt).data.contains ',' = true ∧
      map_fitid fitids account volgnr (map_amount true amt) dtposted =
        Except.error ("could not convert string to float: " ++ map_amount true amt) ∧
      ∀ (rs : List FitRec) (r : FitRec), r ∈ rs →
        r.trnamt = map_amount true amt →
        ∃ e, runFitids rs = Except.error e) ∧
    (∃ res, map_fitid fitids account volgnr (map_amount false amt) dtposted =
      Except.ok res) ∧
    (hasSepChar amt = false →
      ∃ res, map_fitid fitids account volgnr (map_amount true amt) dtposted =
        Except.ok res) := by
  refine ⟨fun hsep => ?_, ?_, fun hnosep => ?_⟩
  · have hmem : ',' ∈ (map_amount true amt).data := map_amount_comma_mem amt hsep
    have hnone : pyFloat (map_amount true amt) = none :=
      pyFloat_comma_none _ hmem
    refine ⟨List.elem_iff.mpr hmem, map_fitid_error_of_parse_fail _ _ _ _ _ hnone, ?_⟩
    intro rs r hrm hamt
    have hrnone : pyFloat r.trnamt = none := by rw [hamt]; exact hnone
    exact runFitidsAux_error_of_mem r hrnone rs [] hrm
  · obtain ⟨v, hv⟩ := pyFloat_toPoint_some amt hnum
    exact map_fitid_ok_of_parse _ _ _ _ _ v hv
  · obtain ⟨h1, h2⟩ := map_amount_id_of_no_sep amt hnosep
    obtain ⟨v, hv⟩ := pyFloat_toPoint_some amt hnum
    rw [h2] at hv
    rw [h1]
    exact map_fitid_ok_of_parse _ _ _ _ _ v (by rw [hv])

/-- Witness for C9 at the amount `-12,34` (comma preference fatal) and the
same amount under point preference (succeeds). -/
theorem comma_pref_breaks_fitid_witness :
    (map_amount true "-12,34").data.contains ',' = true ∧
    map_fitid [] "ACCT" "7" (map_amount true "-12,34") "20230101" =
      Except.error ("could not convert string to float: " ++ map_amount true "-12,34") ∧
    (∃ e, runFitids [⟨"ACCT", "7", map_amount true "-12,34", "20230101"⟩] =
      Except.error e) ∧
    (∃ res, map_fitid [] "ACCT" "7" (map_amount false "-12,34") "20230101" =
      Except.ok res) :=
  have h := comma_pref_breaks_fitid "-12,34" (by decide) [] "ACCT" "7" "20230101"
  ⟨(h.1 (by decide)).1, (h.1 (by decide)).2.1,
   (h.1 (by decide)).2.2 [⟨"ACCT", "7", map_amount true "-12,34", "20230101"⟩]
      ⟨"ACCT", "7", map_amount true "-12,34", "20230101"⟩
      (List.mem_singleton.mpr rfl) rfl,
   h.2.1⟩

/-! ### C1: identifier uniqueness -/

/-- `natDigitsRev` with sufficient fuel is inverted by `ofDigitsRevNat`. -/
theorem ofDigitsRevNat_natDigitsRev : ∀ (f n : Nat), n ≤ f →
    ofDigitsRevNat (natDigitsRev f n) = n := by
  intro f
  induction f with
  | zero =>
      intro n h
      interval_cases n
      rfl
  | succ f ih =>
      intro n h
      by_cases hn : n = 0
      · subst hn
        simp [natDigitsRev, ofDigitsRevNat]
      · have hdiv : n / 10 ≤ f := by
          have : n / 10 < n := Nat.div_lt_self (Nat.pos_of_ne_zero hn) (by decide)
          omega
        simp only [natDigitsRev, if_neg hn, ofDigitsRevNat]
        rw [ih (n / 10) hdiv]
        omega

/-- All entries of `natDigitsRev` are single digits. -/
theorem natDigitsRev_lt : ∀ (f n : Nat), ∀ d ∈ natDigitsRev f n, d < 10 := by
  intro f
  induction f with
  | zero => intro n d hd; simp [natDigitsRev] at hd
  | succ f ih =>
      intro n d hd
      by_cases hn : n = 0
      · subst hn
        simp [natDigitsRev] at hd
      · simp only [natDigitsRev, if_neg hn] at hd
        rcases List.mem_cons.mp hd with he | hm
        · subst he
          omega
        · exact ih (n / 10) d hm

/-- `Nat.digitChar` is injective on single digits. -/
theorem digitChar_inj_lt (a b : Nat) (ha : a < 10) (hb : b < 10)
    (h : Nat.digitChar a = Nat.digitChar b) : a = b := by
  interval_cases a <;> interval_cases b <;> revert h <;> decide

/-- Mapping `Nat.digitChar` over digit lists is injective. -/
theorem map_digitChar_inj : ∀ (l1 l2 : List Nat),
    (∀ d ∈ l1, d < 10) → (∀ d ∈ l2, d < 10) →
    l1.map Nat.digitChar = l2.map Nat.digitChar → l1 = l2 := by
  intro l1
  induction l1 with
  | nil =>
      intro l2 _ _ h
      cases l2 with
      | nil => rfl
      | cons e es => simp at h
  | cons d ds ih =>
      intro l2 h1 h2 h
      cases l2 with
      | nil => simp at h
      | cons e es =>
          simp only [List.map_cons, List.cons.injEq] at h
          have hd := digitChar_inj_lt d e (h1 d (by simp)) (h2 e (by simp)) h.1
          rw [hd, ih es (fun x hx => h1 x (by simp [hx]))
            (fun x hx => h2 x (by simp [hx])) h.2]

/-- Only zero prints as `"0"`. -/
theorem natStr_eq_zero_imp (n : Nat) (h : natStr n = "0") : n = 0 := by
  by_cases hn : n = 0
  · exact hn
  · exfalso
    unfold natStr at h
    rw [if_neg hn] at h
    have hdata : ((natDigitsRev n n).map Nat.digitChar).reverse = ['0'] :=
      congrArg String.data h
    have h1 : (natDigitsRev n n).map Nat.digitChar = ['0'] := by
      have h2 := congrArg List.reverse hdata
      simpa using h2
    cases hD : natDigitsRev n n with
    | nil =>
        rw [hD] at h1
        simp at h1
    | cons d ds =>
        rw [hD] at h1
        simp only [List.map_cons, List.cons.injEq] at h1
        obtain ⟨hd0, hds⟩ := h1
        have hds2 : ds = [] := by
          cases ds with
          | nil => rfl
          | cons x xs => simp at hds
        have hdlt : d < 10 := natDigitsRev_lt n n d (by rw [hD]; simp)
        have hdz : d = 0 :=
          digitChar_inj_lt d 0 hdlt (by decide) (by rw [hd0]; rfl)
        have hofd := ofDigitsRevNat_natDigitsRev n n (le_refl n)
        rw [hD, hds2, hdz] at hofd
        simp [ofDigitsRevNat] at hofd
        exact hn hofd.symm

/-- The decimal print of a natural number is injective, as the Python
`str` used in fitid sequencing is. -/
theorem natStr_injective (m n : Nat) (h : natStr m = natStr n) : m = n := by
  by_cases hm : m = 0
  · subst hm
    exact (natStr_eq_zero_imp n h.symm).symm
  · by_cases hn : n = 0
    · subst hn
      exact natStr_eq_zero_imp m h
    · unfold natStr at h
      rw [if_neg hm, if_neg hn] at h
      have hdata : ((natDigitsRev m m).map Nat.digitChar).reverse =
          ((natDigitsRev n n).map Nat.digitChar).reverse := congrArg String.data h
      have h3 := congrArg List.reverse hdata
      simp only [List.reverse_reverse] at h3
      have h4 := map_digitChar_inj _ _ (fun d hd => natDigitsRev_lt m m d hd)
        (fun d hd => natDigitsRev_lt n n d hd) h3
      have hm2 := ofDigitsRevNat_natDigitsRev m m (le_refl m)
      have hn2 := ofDigitsRevNat_natDigitsRev n n (le_refl n)
      rw [h4, hn2] at hm2
      exact hm2.symm

/-- Lookup after a dict store on a cons cell. -/
theorem fmLookup_cons (k' : String) (v' : Nat) (l : FitidMap) (k : String) :
    fmLookup ((k', v') :: l) k =
      if (k' == k) = true then some v' else fmLookup l k := by
  unfold fmLookup
  by_cases h : (k' == k) = true
  · rw [if_pos h]
    have hf : List.find? (fun p => p.1 == k) ((k', v') :: l) = some (k', v') := by
      apply List.find?_cons_of_pos
      simpa using h
    rw [hf]
    rfl
  · rw [if_neg h]
    have hf : List.find? (fun p => p.1 == k) ((k', v') :: l) =
        List.find? (fun p => p.1 == k) l := by
      apply List.find?_cons_of_neg
      simpa using h
    rw [hf]

/-- Storing a key makes it look up to the stored value. -/
theorem fmLookup_fmStore_self : ∀ (m : FitidMap) (k : String) (v : Nat),
    fmLookup (fmStore m k v) k = some v := by
  intro m
  induction m with
  | nil =>
      intro k v
      show fmLookup [(k, v)] k = some v
      rw [fmLookup_cons]
      simp
  | cons p rest ih =>
      intro k v
      obtain ⟨k', v'⟩ := p
      by_cases h : k' = k
      · simp only [fmStore, if_pos h]
        rw [fmLookup_cons]
        simp
      · simp only [fmStore, if_neg h]
        rw [fmLookup_cons, if_neg (by simpa using h), ih]

/-- Storing a key leaves other keys' lookups unchanged. -/
theorem fmLookup_fmStore_other : ∀ (m : FitidMap) (k k2 : String) (v : Nat),
    k ≠ k2 → fmLookup (fmStore m k v) k2 = fmLookup m k2 := by
  intro m
  induction m with
  | nil =>
      intro k k2 v h
      show fmLookup [(k, v)] k2 = fmLookup [] k2
      rw [fmLookup_cons, if_neg (by simpa using h)]
  | cons p rest ih =>
      intro k k2 v h
      obtain ⟨k', v'⟩ := p
      by_cases hk : k' = k
      · simp only [fmStore, if_pos hk]
        rw [fmLookup_cons, fmLookup_cons]
        rw [hk]
        by_cases h2 : (k == k2) = true
        · exact absurd (beq_iff_eq.mp h2) h
        · rw [if_neg h2, if_neg h2]
      · simp only [fmStore, if_neg hk]
        rw [fmLookup_cons, fmLookup_cons, ih k k2 v h]

/-- Storing the next sequence number for a key advances that key's next
sequence number by one. -/
theorem seqOf_fmStore_self (m : FitidMap) (k : String) :
    seqOf (fmStore m k (seqOf m k)) k = seqOf m k + 1 := by
  unfold seqOf
  rw [fmLookup_fmStore_self]

/-- Storing one key's sequence number leaves every other key's next
sequence number unchanged. -/
theorem seqOf_fmStore_other (m : FitidMap) (k k2 : String) (v : Nat) (h : k ≠ k2) :
    seqOf (fmStore m k v) k2 = seqOf m k2 := by
  unfold seqOf
  rw [fmLookup_fmStore_other m k k2 v h]

/-- `map_fitid` on a record with key `k` emits `k ++ str(sequence)` and
stores the advanced counter. -/
theorem map_fitid_ok_shape (m : FitidMap) (r : FitRec) (k : String)
    (h : recKey r = some k) :
    map_fitid m r.account r.volgnr r.trnamt r.dtposted =
      Except.ok (k ++ natStr (seqOf m k), fmStore m k (seqOf m k)) := by
  unfold recKey at h
  cases hp : pyFloat r.trnamt with
  | none =>
      rw [hp] at h
      simp at h
  | some v =>
      rw [hp] at h
      simp only [Option.map_some'] at h
      have hk : fitidKey r.account r.volgnr r.trnamt r.dtposted
          (if 0 ≤ v then "C" else "D") = k := by
        injection h
      unfold map_fitid
      rw [hp]
      simp only [hk]
      rfl

/-- Count of a key over a cons of records. -/
theorem keyCount_cons (k : String) (r : FitRec) (rs : List FitRec) :
    keyCount k (r :: rs) =
      (if (recKey r == some k) = true then 1 else 0) + keyCount k rs := by
  unfold keyCount
  rw [List.filter_cons]
  by_cases h : (recKey r == some k) = true
  · rw [if_pos h, if_pos h]
    simp [Nat.add_comm]
  · rw [if_neg h, if_neg h]
    simp

/-- Count of a key is additive over append. -/
theorem keyCount_append (k : String) (l1 l2 : List FitRec) :
    keyCount k (l1 ++ l2) = keyCount k l1 + keyCount k l2 := by
  unfold keyCount
  rw [List.filter_append, List.length_append]

/-- Characterization of one Identifier Generator run: identifiers come out
as `key ++ str(startingSequence + priorOccurrences)`. -/
theorem runFitidsAux_get (rs : List FitRec) : ∀ (m : FitidMap) (l : List String),
    runFitidsAux m rs = Except.ok l →
    l.length = rs.length ∧
    ∀ (j : Nat) (r : FitRec) (k : String), rs[j]? = some r → recKey r = some k →
      l[j]? = some (k ++ natStr (seqOf m k + keyCount k (rs.take j))) := by
  induction rs with
  | nil =>
      intro m l h
      simp only [runFitidsAux] at h
      have hl : l = [] := by
        injection h with h2
        exact h2.symm
      subst hl
      refine ⟨rfl, ?_⟩
      intro j r k hj _
      simp at hj
  | cons r0 rs' ih =>
      intro m l h
      simp only [runFitidsAux] at h
      cases hm0 : map_fitid m r0.account r0.volgnr r0.trnamt r0.dtposted with
      | error e =>
          rw [hm0] at h
          simp at h
      | ok pr =>
          obtain ⟨fid, m2⟩ := pr
          rw [hm0] at h
          have h2 : (match runFitidsAux m2 rs' with
              | Except.error e => Except.error e
              | Except.ok l2 => Except.ok (fid :: l2)) = Except.ok l := h
          cases hrec : runFitidsAux m2 rs' with
          | error e =>
              rw [hrec] at h2
              have h3 : (Except.error e : Except String (List String)) =
                  Except.ok l := h2
              exact Except.noConfusion h3
          | ok l' =>
              rw [hrec] at h2
              have h3 : (Except.ok (fid :: l') : Except String (List String)) =
                  Except.ok l := h2
              have hl : l = fid :: l' := by
                injection h3 with h4
                exact h4.symm
              subst hl
              have hr0 : ∃ k0, recKey r0 = some k0 ∧
                  fid = k0 ++ natStr (seqOf m k0) ∧
                  m2 = fmStore m k0 (seqOf m k0) := by
                cases hp : pyFloat r0.trnamt with
                | none =>
                    rw [map_fitid_error_of_parse_fail m _ _ _ _ hp] at hm0
                    exact absurd hm0 (by simp)
                | some v =>
                    have hk0 : recKey r0 = some (fitidKey r0.account r0.volgnr
                        r0.trnamt r0.dtposted (if 0 ≤ v then "C" else "D")) := by
                      unfold recKey
                      rw [hp]
                      rfl
                    have hshape := map_fitid_ok_shape m r0 _ hk0
                    rw [hshape] at hm0
                    simp only [Except.ok.injEq, Prod.mk.injEq] at hm0
                    exact ⟨_, hk0, hm0.1.symm, hm0.2.symm⟩
              obtain ⟨k0, hk0, hfid, hm2⟩ := hr0
              obtain ⟨ihlen, ihget⟩ := ih m2 l' hrec
              constructor
              · simp [ihlen]
              · intro j r k hj hk
                cases j with
                | zero =>
                    simp only [List.getElem?_cons_zero, Option.some.injEq] at hj
                    subst hj
                    have hkk : k = k0 := by
                      rw [hk0] at hk
                      injection hk with h2
                      exact h2.symm
                    subst hkk
                    simp only [List.getElem?_cons_zero, Option.some.injEq]
                    rw [hfid]
                    simp [keyCount]
                | succ j' =>
                    simp only [List.getElem?_cons_succ] at hj ⊢
                    have hj2 := ihget j' r k hj hk
                    rw [hj2]
                    have htake : (r0 :: rs').take (j' + 1) = r0 :: rs'.take j' :=
                      rfl
                    rw [htake, keyCount_cons]
                    by_cases hkk : k0 = k
                    · subst hkk
                      rw [hm2, seqOf_fmStore_self]
                      have hone : (recKey r0 == some k0) = true := by
                        rw [hk0]
                        exact beq_self_eq_true _
                      rw [hone, if_pos rfl]
                      have : seqOf m k0 + 1 + keyCount k0 (rs'.take j') =
                          seqOf m k0 + (1 + keyCount k0 (rs'.take j')) := by omega
                      rw [this]
                    · rw [hm2, seqOf_fmStore_other m k0 k _ hkk]
                      have hzero : (recKey r0 == some k) = false := by
                        rw [hk0]
                        by_cases hb : (some k0 == some k) = true
                        · exact absurd (Option.some.inj (beq_iff_eq.mp hb)) hkk
                        · simpa using hb
                      rw [hzero]
                      simp

/-- C1 counterexample: a concrete twelve-record run in which the eleventh
identifier for key `A1` and the first identifier for key `A11` are both
`"A110"`, so the produced identifiers are not pairwise distinct. -/
theorem fitids_collision :
    runFitids cexRecords = Except.ok cexFitids ∧ ¬ cexFitids.Nodup :=
  ⟨rfl, by decide⟩

/-- C1 amended: within one run, identifiers produced by records with the
same key are pairwise distinct (the per-key counter guarantees this);
identifiers of records with different keys can collide, as
`fitids_collision` shows. -/
theorem fitids_same_key_distinct (rs : List FitRec) (l : List String)
    (hrun : runFitids rs = Except.ok l) (i j : Nat) (hij : i < j)
    (ri rj : FitRec) (hi : rs[i]? = some ri) (hj : rs[j]? = some rj)
    (k : String) (hki : recKey ri = some k) (hkj : recKey rj = some k) :
    ∃ fi fj, l[i]? = some fi ∧ l[j]? = some fj ∧ fi ≠ fj := by
  obtain ⟨hlen, hget⟩ := runFitidsAux_get rs [] l hrun
  have hli := hget i ri k hi hki
  have hlj := hget j rj k hj hkj
  refine ⟨_, _, hli, hlj, ?_⟩
  intro heq
  have hd : k.data ++ (natStr (seqOf [] k + keyCount k (rs.take i))).data =
      k.data ++ (natStr (seqOf [] k + keyCount k (rs.take j))).data :=
    congrArg String.data heq
  have hdd := List.append_cancel_left hd
  have hstr : natStr (seqOf [] k + keyCount k (rs.take i)) =
      natStr (seqOf [] k + keyCount k (rs.take j)) := congrArg String.mk hdd
  have hnums := natStr_injective _ _ hstr
  have htakei : rs.take (i + 1) = rs.take i ++ [ri] := by
    rw [List.take_succ, hi]
    rfl
  have hone : keyCount k [ri] = 1 := by
    unfold keyCount
    simp [hki]
  have hmono : keyCount k (rs.take (i + 1)) ≤ keyCount k (rs.take j) := by
    have htake : rs.take j = rs.take (i + 1) ++ (rs.drop (i + 1)).take (j - (i + 1)) := by
      rw [← List.take_add]
      congr 1
      omega
    rw [htake, keyCount_append]
    omega
  rw [htakei, keyCount_append, hone] at hmono
  omega

/-- Witness for C1's amended claim: two same-key records receive the
distinct identifiers `A10` and `A11`. -/
theorem fitids_same_key_distinct_witness :
    ∃ fi fj, (["A10", "A11"] : List String)[0]? = some fi ∧
      (["A10", "A11"] : List String)[1]? = some fj ∧ fi ≠ fj :=
  fitids_same_key_distinct [cexRec "1", cexRec "1"] ["A10", "A11"] rfl
    0 1 (by decide) (cexRec "1") (cexRec "1") rfl rfl "A1" rfl rfl

end Rabo2Ofx
